import Mathlib

/-!
# Verification of the ghru self-update engine

A shallow embedding of the ghru repository (GitHub Release Updater for Go
applications), covering:

* Go `path/filepath` lexical path manipulation (Unix separator), needed by the
  extraction and replacement code: `pathClean`, `pathJoin`, `pathDir`, `pathBase`;
* the `blang/semver` version parser and comparator used by `ghru.go`;
* the release resolver `Latest`, the comparator wrapper `Compare` and the
  update decision of `Update` (ghru.go);
* the zip extractor `unzip`, the tar extractor `extractArchive` (untar.go)
  over an explicit filesystem state;
* the archive-format detector `detectFileType` and the binary replacement
  protocol `replaceFile` (helpers file).

String scanning helpers are written over `String.data` (lists of characters)
so that every definition reduces by `decide`/`rfl`; the modelled suffixes and
separators are ASCII, where Go's byte-wise operations and the character-wise
operations here agree.
-/

namespace Ghru

/-! ## Go `strings` primitives -/

/-- Go `strings.HasPrefix s pre` (byte-wise; ASCII-equivalent char-wise model). -/
def goStartsWith (s pre : String) : Bool :=
  pre.data.isPrefixOf s.data

/-- Go `strings.HasSuffix s suffix` (byte-wise; ASCII-equivalent char-wise model). -/
def goEndsWith (s suf : String) : Bool :=
  suf.data.isSuffixOf s.data

/-- Go `strings.ToLower` restricted to ASCII letters (the suffixes and names the
code compares are ASCII). -/
def strToLower (s : String) : String :=
  String.mk (s.data.map Char.toLower)

/-- Go `strings.Contains name ".."`: does the character list contain two
consecutive dots? -/
def containsDotDot : List Char → Bool
  | '.' :: '.' :: _ => true
  | _ :: rest => containsDotDot rest
  | [] => false

/-- Split a character list at every occurrence of `sep`
(Go `strings.Split`; the result is never empty). -/
def splitOnChar (sep : Char) : List Char → List (List Char)
  | [] => [[]]
  | c :: rest =>
    match splitOnChar sep rest with
    | [] => [[]]
    | g :: gs => if c = sep then [] :: g :: gs else (c :: g) :: gs

/-- Split a character list at the first occurrence of `sep`
(Go `strings.IndexRune` followed by slicing); `none` when `sep` is absent. -/
def breakAtFirst (sep : Char) : List Char → Option (List Char × List Char)
  | [] => none
  | c :: rest =>
    if c = sep then some ([], rest)
    else (breakAtFirst sep rest).map (fun p => (c :: p.1, p.2))

/-! ## Go `path/filepath` (Unix rules, as used on the extraction paths) -/

/-- The element-stack loop of Go `filepath.Clean`: push normal elements,
let `..` pop a previously pushed element (unless the stack holds only `..`
elements), and drop `..` at the root.  The accumulator is kept reversed. -/
def cleanFold (rooted : Bool) : List (List Char) → List (List Char) → List (List Char)
  | acc, [] => acc
  | acc, c :: cs =>
    if c = ['.', '.'] then
      match acc with
      | [] => cleanFold rooted (if rooted then [] else [['.', '.']]) cs
      | last :: rest =>
        if last = ['.', '.'] then cleanFold rooted (c :: last :: rest) cs
        else cleanFold rooted rest cs
    else cleanFold rooted (c :: acc) cs

/-- Join path elements with `/` (Go `strings.Join parts "/"`). -/
def joinSlash : List (List Char) → List Char
  | [] => []
  | [p] => p
  | p :: ps => p ++ '/' :: joinSlash ps

/-- Go `filepath.Clean` for Unix paths: lexical simplification removing `.`
elements, double separators and resolvable `..` elements. -/
def pathClean (path : String) : String :=
  if path = "" then "."
  else
    let rooted := goStartsWith path "/"
    let comps := (splitOnChar '/' path.data).filter (fun c => c ≠ [] ∧ c ≠ ['.'])
    let parts := (cleanFold rooted [] comps).reverse
    let s := String.mk (joinSlash parts)
    if rooted then "/" ++ s
    else if s = "" then "." else s

/-- Go `filepath.Join a b` (empty elements are dropped; the result is cleaned;
all-empty input yields the empty string). -/
def pathJoin (a b : String) : String :=
  if a = "" ∧ b = "" then ""
  else if a = "" then pathClean b
  else if b = "" then pathClean a
  else pathClean (a ++ "/" ++ b)

/-- Go `filepath.Dir`: everything up to and including the final separator,
cleaned (`.` when there is no separator). -/
def pathDir (p : String) : String :=
  pathClean (String.mk ((p.data.reverse.dropWhile (· ≠ '/')).reverse))

/-- Go `filepath.Base`: the final path element, after discarding trailing
separators; `.` for the empty path and `/` for all-separator paths. -/
def pathBase (p : String) : String :=
  if p = "" then "."
  else
    let cs := (p.data.reverse.dropWhile (· = '/')).reverse
    if cs = [] then "/"
    else String.mk ((cs.reverse.takeWhile (· ≠ '/')).reverse)

/-! ## The `blang/semver` library as used by ghru.go

`semver.Make` (= `semver.Parse`) and `Version.Compare`, translated from the
library the resolver depends on.  Numeric parts are `Nat` (the 64-bit overflow
failure of `strconv.ParseUint` on astronomically large components is not
modelled). -/

/-- One pre-release identifier: numeric (`IsNum`, value in `num`) or
alphanumeric (value in `str`). -/
structure PRVersion where
  str : String
  num : Nat
  isNum : Bool
deriving DecidableEq, Repr, Inhabited

/-- A parsed semantic version. -/
structure SemVersion where
  major : Nat
  minor : Nat
  patch : Nat
  pre : List PRVersion
  build : List String
deriving DecidableEq, Repr, Inhabited

/-- The zero `semver.Version{}` value (Go zero value). -/
def zeroSemVer : SemVersion := ⟨0, 0, 0, [], []⟩

/-- Digits of a decimal numeral to its value. -/
def digitsToNat (cs : List Char) : Nat :=
  cs.foldl (fun n c => n * 10 + (c.toNat - 48)) 0

/-- Parse one numeric version component: digits only, non-empty, no leading
zeroes (blang/semver `containsOnly`/`hasLeadingZeroes`/`ParseUint`). -/
def parseNumPart (cs : List Char) : Option Nat :=
  if cs = [] then none
  else if ¬ cs.all Char.isDigit then none
  else if cs.length > 1 ∧ cs.head? = some '0' then none
  else some (digitsToNat cs)

/-- blang/semver alphanumeric identifier characters: ASCII letters, digits
and `-`. -/
def isAlphanumIdentChar (c : Char) : Bool :=
  c.isAlpha || c.isDigit || c = '-'

/-- blang/semver `NewPRVersion`: a pre-release identifier is numeric (no
leading zeroes) or alphanumeric. -/
def newPRVersion (cs : List Char) : Option PRVersion :=
  if cs = [] then none
  else if cs.all Char.isDigit then
    if cs.length > 1 ∧ cs.head? = some '0' then none
    else some ⟨"", digitsToNat cs, true⟩
  else if cs.all isAlphanumIdentChar then some ⟨String.mk cs, 0, false⟩
  else none

/-- blang/semver build-metadata identifier: non-empty and alphanumeric. -/
def validBuildPart (cs : List Char) : Bool :=
  cs ≠ [] && cs.all isAlphanumIdentChar

/-- blang/semver `Make`/`Parse`: split on the first two dots, parse
`major.minor`, then split the remainder at the first `+` (build metadata) and
the first `-` (pre-release identifiers, dot-separated).  `none` models the
error return.  Note the library does not strip a leading `v`. -/
def semverMake (s : String) : Option SemVersion :=
  match splitOnChar '.' s.data with
  | p0 :: p1 :: p2 :: prest =>
    match parseNumPart p0, parseNumPart p1 with
    | some major, some minor =>
      let patchFull := joinDots (p2 :: prest)
      let (patchPre, buildPart) :=
        match breakAtFirst '+' patchFull with
        | none => (patchFull, none)
        | some (a, b) => (a, some b)
      let (patchCs, preSection) :=
        match breakAtFirst '-' patchPre with
        | none => (patchPre, none)
        | some (a, b) => (a, some b)
      match parseNumPart patchCs with
      | none => none
      | some patch =>
        let preIds : Option (List PRVersion) :=
          match preSection with
          | none => some []
          | some pcs => (splitOnChar '.' pcs).mapM newPRVersion
        let buildIds : Option (List String) :=
          match buildPart with
          | none => some []
          | some bcs =>
            let parts := splitOnChar '.' bcs
            if parts.all validBuildPart then some (parts.map String.mk) else none
        match preIds, buildIds with
        | some pre, some build => some ⟨major, minor, patch, pre, build⟩
        | _, _ => none
    | _, _ => none
  | _ => none
where
  /-- Re-join components split at dots (`SplitN(s, ".", 3)` keeps the dots of
  the remainder). -/
  joinDots : List (List Char) → List Char
    | [] => []
    | [p] => p
    | p :: ps => p ++ '.' :: joinDots ps

/-- Go's byte-wise string `<` (lexicographic on character codes; identical to
byte order on the ASCII identifiers semver admits). -/
def charListLt : List Char → List Char → Bool
  | [], [] => false
  | [], _ :: _ => true
  | _ :: _, [] => false
  | c :: cs, d :: ds =>
    if c.toNat < d.toNat then true
    else if d.toNat < c.toNat then false
    else charListLt cs ds

/-- blang/semver `PRVersion.Compare`: numeric identifiers sort below
alphanumeric ones; numeric compare by value, alphanumeric lexically
(`v.str > o.str` is Go string order, modelled by `charListLt`). -/
def prCompare (v o : PRVersion) : Int :=
  if v.isNum ∧ ¬ o.isNum then -1
  else if ¬ v.isNum ∧ o.isNum then 1
  else if v.isNum then
    (if v.num = o.num then 0 else if v.num > o.num then 1 else -1)
  else
    (if v.str = o.str then 0 else if charListLt o.str.data v.str.data then 1 else -1)

/-- blang/semver pre-release list comparison: pointwise, a strict prefix
sorting below the longer list. -/
def preListCompare : List PRVersion → List PRVersion → Int
  | [], [] => 0
  | [], _ :: _ => -1
  | _ :: _, [] => 1
  | x :: xs, y :: ys =>
    let c := prCompare x y
    if c ≠ 0 then c else preListCompare xs ys

/-- The pre-release phase of `Version.Compare`: an empty identifier list
(a release version) sorts above any non-empty one. -/
def preCmp (a b : List PRVersion) : Int :=
  if a = [] ∧ b = [] then 0
  else if a = [] then 1
  else if b = [] then -1
  else preListCompare a b

/-- blang/semver `Version.Compare`: major, minor, patch numerically, then a
version without pre-release identifiers sorts above one with them
(the pre-release phase is `preCmp`, inlined as in the library). -/
def semverCompare (v o : SemVersion) : Int :=
  if v.major ≠ o.major then (if v.major > o.major then 1 else -1)
  else if v.minor ≠ o.minor then (if v.minor > o.minor then 1 else -1)
  else if v.patch ≠ o.patch then (if v.patch > o.patch then 1 else -1)
  else if v.pre = [] ∧ o.pre = [] then 0
  else if v.pre = [] then 1
  else if o.pre = [] then -1
  else preListCompare v.pre o.pre

/-! ## Archive format detector (`detectFileType`) -/

/-- The function `detectFileType` from the helpers file: lower-case the remainder of the
filename, then match the supported suffixes; `.error` models the
`unsupported file type: %s` error return. -/
def detectFileType (remainder : String) : Except String String :=
  let r := strToLower remainder
  if goEndsWith r ".tar.gz" || goEndsWith r ".tgz" then .ok "tar.gz"
  else if goEndsWith r ".tar.bz2" then .ok "tar.bz2"
  else if goEndsWith r ".zip" then .ok "zip"
  else .error ("unsupported file type: " ++ r)

/-! ## Release resolver (`Latest`), comparator wrapper (`Compare`) and the
update decision (`Update`) of ghru.go

The network fetch and JSON decoding are collaborators; the resolver is
modelled on the decoded release list, with the host `GOOS`/`GOARCH` passed as
parameters. -/

/-- One asset record of the GitHub releases feed. -/
structure GhAsset where
  browserDownloadURL : String
  id : Int
  name : String
  size : Int
deriving DecidableEq, Repr

/-- One release record of the GitHub releases feed. -/
structure GhRelease where
  name : String
  tag : String
  prerelease : Bool
  assets : List GhAsset
deriving DecidableEq, Repr

/-- The `Release` struct of ghru.go: the file data of a downloadable release. -/
structure Release where
  name : String
  tag : String
  url : String
  size : Int
  semVer : SemVersion
deriving DecidableEq, Repr

/-- The zero `Release{}` value used to seed the latest-release scan. -/
def emptyRelease : Release := ⟨"", "", "", 0, zeroSemVer⟩

/-- The expected asset filename
`fmt.Sprintf("%s_%s_%s_%s%s.bz2", name, tag, linkOS, linkArch, linkExt)`
with `linkExt = ".exe"` on Windows. -/
def binaryNameFor (name tag goos goarch : String) : String :=
  name ++ "_" ++ tag ++ "_" ++ goos ++ "_" ++ goarch ++
    (if goos = "windows" then ".exe" else "") ++ ".bz2"

/-- The per-release body of the loop in `Latest` (ghru.go:73-94): skip tags
that are not valid semver; skip pre-releases (explicit flag or pre-release
suffix) unless allowed; then take the first asset whose name equals the
expected binary name (the inner loop `break`s on a match). -/
def releaseCandidate (allowPrereleases : Bool) (name goos goarch : String)
    (r : GhRelease) : Option Release :=
  match semverMake r.tag with
  | none => none
  | some tagVersion =>
    if ¬ allowPrereleases ∧ (tagVersion.pre ≠ [] ∨ r.prerelease) then none
    else
      match r.assets.find? (fun a => a.name = binaryNameFor name r.tag goos goarch) with
      | none => none
      | some a => some ⟨a.name, r.tag, a.browserDownloadURL, a.size, tagVersion⟩

/-- All candidate releases collected by `Latest` (at most one per feed entry). -/
def candidatesOf (allowPrereleases : Bool) (name goos goarch : String)
    (releases : List GhRelease) : List Release :=
  releases.filterMap (releaseCandidate allowPrereleases name goos goarch)

/-- The selection core of `Latest` (ghru.go:66-110): collect candidates, fail
with `No binary releases found` when none, otherwise scan for the release
strictly greater (in semver order) than the running maximum, seeded with the
zero `Release{}`, and return `(tag, filename, download URL)`. -/
def latestFrom (allowPrereleases : Bool) (name goos goarch : String)
    (releases : List GhRelease) : Except String (String × String × String) :=
  let allReleases := candidatesOf allowPrereleases name goos goarch releases
  if allReleases = [] then .error "No binary releases found"
  else
    let latestRelease := allReleases.foldl
      (fun acc r => if semverCompare r.semVer acc.semVer > 0 then r else acc)
      emptyRelease
    .ok (latestRelease.tag, latestRelease.name, latestRelease.url)

/-- The function `Compare` (ghru.go:115-127): an unparsable `fromVer` reports 1 (upgrade
available); a parsable `fromVer` with unparsable `toVer` reports -1; otherwise
the semver comparison of `toVer` against `fromVer`. -/
def Compare (fromVer toVer : String) : Int :=
  match semverMake fromVer with
  | none => 1
  | some fromVersion =>
    match semverMake toVer with
    | none => -1
    | some toVersion => semverCompare toVersion fromVersion

/-- The decision prefix of `Update` (ghru.go:130-146): propagate a resolution
error; report `No new release found` when the resolved tag equals the current
version, or when the resolved version does not compare strictly greater than
the current version (parse errors ignored, defaulting to the zero version);
otherwise proceed (modelled as returning the resolved tag). -/
def updateDecision (latest : Except String (String × String × String))
    (currentVersion : String) : Except String String :=
  match latest with
  | .error e => .error e
  | .ok (ver, _, _) =>
    if ver = currentVersion then .error "No new release found"
    else
      let tagVersion := (semverMake currentVersion).getD zeroSemVer
      let latestVersion := (semverMake ver).getD zeroSemVer
      if semverCompare latestVersion tagVersion < 1 then .error "No new release found"
      else .ok ver

/-! ## Filesystem state

A flat association of absolute paths to nodes, enough to record what the
extractors create.  Creation primitives are modelled as succeeding (the claims
under verification concern the path checks, the metadata best-effort behaviour
and the streaming-copy failure, not disk-full style I/O errors). -/

/-- Metadata an extractor may propagate onto a node (each `none` until the
corresponding syscall succeeds). -/
structure FileMeta where
  mode : Option Nat := none
  times : Option (Nat × Nat) := none
  owner : Option (Nat × Nat) := none
deriving DecidableEq, Repr, Inhabited

/-- A directory or a regular file with its byte content. -/
inductive FsNode
  | dir (meta : FileMeta)
  | file (content : List Nat) (meta : FileMeta)
deriving DecidableEq, Repr, Inhabited

/-- The filesystem: paths to nodes (the head entry shadows nothing; `fsSet`
keeps keys unique). -/
abbrev FS := List (String × FsNode)

/-- Store `n` at `p`, replacing any previous node. -/
def fsSet (fs : FS) (p : String) (n : FsNode) : FS :=
  (p, n) :: fs.filter (fun pn => pn.1 != p)

/-- The helper `isDir`: `os.Stat` succeeds and reports a
directory. -/
def fsIsDir (fs : FS) (p : String) : Bool :=
  match fs.lookup p with
  | some (.dir _) => true
  | _ => false

/-- Go `os.MkdirAll p` as used by the extractors: ensure a directory node exists
at `p` (parent creation and failure modes are not load-bearing for the claims
and are elided). -/
def mkdirModel (fs : FS) (p : String) : FS :=
  if fsIsDir fs p then fs else fsSet fs p (.dir {})

/-- One best-effort metadata syscall. -/
inductive MetaOp
  | chown (p : String) (uid gid : Nat)
  | chmod (p : String) (mode : Nat)
  | chtimes (p : String) (atime mtime : Nat)
deriving DecidableEq, Repr

/-- Which path a metadata syscall touches. -/
def metaPath : MetaOp → String
  | .chown p _ _ => p
  | .chmod p _ => p
  | .chtimes p _ _ => p

/-- Environment oracle: does a given metadata syscall succeed?  (The code
ignores these errors, so the oracle must not influence anything but the
stored metadata.) -/
abbrev MetaOracle := MetaOp → Bool

/-- Record the effect of a successful metadata syscall on a node. -/
def setMeta (op : MetaOp) : FsNode → FsNode
  | .dir m => .dir (metaUpd op m)
  | .file c m => .file c (metaUpd op m)
where
  metaUpd : MetaOp → FileMeta → FileMeta
    | .chown _ u g, m => { m with owner := some (u, g) }
    | .chmod _ md, m => { m with mode := some md }
    | .chtimes _ a t, m => { m with times := some (a, t) }

/-- A best-effort metadata syscall: apply it when the oracle lets it succeed,
silently do nothing otherwise (the extractors discard the error). -/
def applyMeta (env : MetaOracle) (op : MetaOp) (fs : FS) : FS :=
  if env op then
    fs.map (fun pn => if pn.1 = metaPath op then (pn.1, setMeta op pn.2) else pn)
  else fs

/-- A node with its metadata forgotten: which kind it is, and a file's bytes. -/
inductive NodeShape
  | dirS
  | fileS (content : List Nat)
deriving DecidableEq, Repr

/-- Forget a node's metadata. -/
def nodeShape : FsNode → NodeShape
  | .dir _ => .dirS
  | .file c _ => .fileS c

/-- Forget every node's metadata. -/
def fsShape (fs : FS) : List (String × NodeShape) :=
  fs.map (fun pn => (pn.1, nodeShape pn.2))

/-! ## Zip extraction (`unzip`) -/

/-- One entry of an opened zip archive. -/
structure ZipFile where
  name : String
  isDir : Bool
  mode : Nat
  content : List Nat
deriving DecidableEq, Repr

/-- The destination path of a zip entry:
`filepath.Join(dest, filepath.Clean(f.Name))`. -/
def zipEntryPath (dest : String) (f : ZipFile) : String :=
  pathJoin dest (pathClean f.name)

/-- The zip-slip check of `unzip`: the joined path must start with
`filepath.Clean(dest) + os.PathSeparator`. -/
def zipPasses (dest : String) (f : ZipFile) : Bool :=
  goStartsWith (zipEntryPath dest f) (pathClean dest ++ "/")

/-- The filesystem effect of extracting one accepted zip entry: directories
via `MkdirAll`; files via `MkdirAll` on the parent then `OpenFile` with the
entry's mode and a streamed copy. -/
def zipStep (dest : String) (fs : FS) (f : ZipFile) : FS :=
  let filePath := zipEntryPath dest f
  if f.isDir then mkdirModel fs filePath
  else fsSet (mkdirModel fs (pathDir filePath)) filePath
    (.file f.content { mode := some f.mode })

instance {ε α : Type} [DecidableEq ε] [DecidableEq α] : DecidableEq (Except ε α) := fun x y =>
  match x, y with
  | .ok a, .ok b => decidable_of_iff (a = b) (by simp)
  | .error a, .error b => decidable_of_iff (a = b) (by simp)
  | .ok _, .error _ => isFalse (by simp)
  | .error _, .ok _ => isFalse (by simp)

/-- Result of `unzip`: the collected paths, the error outcome, and the
filesystem. -/
structure UnzipResult where
  names : List String
  result : Except String Unit
  fs : FS
deriving DecidableEq, Repr

/-- The entry loop of `unzip`: join and check each entry's path, stopping with
an `illegal file path` error on the first entry escaping the destination;
record each accepted path, then create the directory or stream the file. -/
def unzipLoop (dest : String) : List ZipFile → List String → FS → UnzipResult
  | [], names, fs => ⟨names, .ok (), fs⟩
  | f :: rest, names, fs =>
    let filePath := zipEntryPath dest f
    if ¬ zipPasses dest f then
      ⟨names, .error (filePath ++ ": illegal file path"), fs⟩
    else
      unzipLoop dest rest (names ++ [filePath]) (zipStep dest fs f)

/-- The function `unzip src dest` on the decoded entry list of the archive. -/
def unzip (files : List ZipFile) (dest : String) (fs : FS) : UnzipResult :=
  unzipLoop dest files [] fs

/-- The filesystem after extracting a list of accepted entries. -/
def zipProcFs (dest : String) (files : List ZipFile) (fs : FS) : FS :=
  files.foldl (zipStep dest) fs

/-! ## Tar extraction (`extractArchive`, untar.go) -/

/-- One tar header with its file data; `readError` marks an entry whose data
stream fails mid-copy (a corrupt compressed stream surfacing from
`tarReader.Read`). -/
structure TarHeader where
  name : String
  isDir : Bool
  content : List Nat
  readError : Bool
  mode : Nat
  uid : Nat
  gid : Nat
  atime : Nat
  mtime : Nat
deriving DecidableEq, Repr

/-- One `tarReader.Next()` outcome: a header, or a header-read error. -/
abbrev TarItem := Except String TarHeader

/-- Go `header.FileInfo().Name()` from `archive/tar`: the base of the header
name, after `Clean` for directories. -/
def tarFiName (h : TarHeader) : String :=
  if h.isDir then pathBase (pathClean h.name) else pathBase h.name

/-- How an extraction run ends: normal return, returned error, or a runtime
panic (program abort). -/
inductive ExtractStatus
  | ok
  | error (msg : String)
  | panicked
deriving DecidableEq, Repr

/-- Result of a tar extraction. -/
structure ExtractResult where
  status : ExtractStatus
  fs : FS
deriving DecidableEq, Repr

/-- The post-extraction pass (untar.go:228-233): re-apply each recorded
directory's timestamps and permission bits (best-effort). -/
def applyPost (env : MetaOracle) (post : List (String × TarHeader)) (fs : FS) : FS :=
  post.foldl (fun fs ph =>
    applyMeta env (.chmod ph.1 (ph.2.mode % 512))
      (applyMeta env (.chtimes ph.1 ph.2.atime ph.2.mtime) fs)) fs

/-- The entry loop of `extractArchive` (untar.go:149-235): a header-read error
returns; an entry whose `FileInfo().Name()` contains `..` is skipped; a
directory is created (755-style), `chown`ed best-effort and queued for the
post pass; a file gets its parent directory on demand, is created and
streamed — a mid-copy read error `panic`s — then `chmod`/`chtimes`/`chown`
are applied best-effort.  After the loop the post pass runs. -/
def extractLoop (env : MetaOracle) (directory : String) :
    List TarItem → FS → List (String × TarHeader) → ExtractResult
  | [], fs, post => ⟨.ok, applyPost env post fs⟩
  | .error e :: _, fs, _ => ⟨.error e, fs⟩
  | .ok h :: rest, fs, post =>
    if containsDotDot (tarFiName h).data then extractLoop env directory rest fs post
    else
      let dir := pathJoin directory (pathDir h.name)
      let filename := pathJoin dir (tarFiName h)
      if h.isDir then
        let fs := mkdirModel fs filename
        let fs := applyMeta env (.chown filename h.uid h.gid) fs
        extractLoop env directory rest fs (post ++ [(filename, h)])
      else
        let fs := if ¬ fsIsDir fs dir then mkdirModel fs dir else fs
        let fs := fsSet fs filename (.file [] {})
        if h.readError then ⟨.panicked, fs⟩
        else
          let fs := fsSet fs filename (.file h.content {})
          let fs := applyMeta env (.chown filename h.uid h.gid)
            (applyMeta env (.chtimes filename h.atime h.mtime)
              (applyMeta env (.chmod filename h.mode) fs))
          extractLoop env directory rest fs post

/-- The function `extractArchive` on the decoded stream of tar items. -/
def extractArchive (env : MetaOracle) (items : List TarItem) (directory : String)
    (fs : FS) : ExtractResult :=
  extractLoop env directory items fs []

/-! ## Binary replacement (`replaceFile`, helpers file)

The protocol is modelled as the ordered trace of filesystem syscalls the
function performs, driven by an oracle deciding which syscalls succeed; the
function stops at the first failure, exactly as each `if err != nil` early
return does. -/

/-- One filesystem syscall of the replacement protocol. -/
inductive FsOp
  | openF (p : String)
  | statF (p : String)
  | createF (p : String)
  | copyF (src dst : String)
  | closeF (p : String)
  | renameF (a b : String)
  | removeF (p : String)
deriving DecidableEq, Repr

/-- Whether a syscall's error aborts the function (`os.Stat`'s error is
explicitly ignored by the code). -/
def opFallible : FsOp → Bool
  | .statF _ => false
  | _ => true

/-- Attempt one syscall: on a previous failure do nothing; otherwise append
the op to the trace, or stop with a failed flag when the oracle denies a
fallible op. -/
def tryOp (ok : FsOp → Bool) (st : List FsOp × Bool) (op : FsOp) : List FsOp × Bool :=
  if st.2 then
    if opFallible op && !(ok op) then (st.1, false)
    else (st.1 ++ [op], true)
  else st

/-- The function `replaceFile dst src` from the helpers file, one `tryOp` per Go
statement: open the source, stat the destination (error ignored), create
`<binary>.new`, copy into it, close it and the source, rename `dst` to
`<binary>.old`, rename `<binary>.new` onto `dst`, dispose of `<binary>.old`
(rename into the OS temp directory on Windows, delete elsewhere), and remove
the source file. -/
def replaceFile (goos tmpOSDir : String) (ok : FsOp → Bool) (dst src : String) :
    List FsOp × Bool :=
  let dstDir := pathDir dst
  let binaryFilename := pathBase dst
  let newTmpAbs := pathJoin dstDir (binaryFilename ++ ".new")
  let oldTmpAbs := pathJoin dstDir (binaryFilename ++ ".old")
  let st := tryOp ok ([], true) (.openF src)
  let st := tryOp ok st (.statF dst)
  let st := tryOp ok st (.createF newTmpAbs)
  let st := tryOp ok st (.copyF src newTmpAbs)
  let st := tryOp ok st (.closeF newTmpAbs)
  let st := tryOp ok st (.closeF src)
  let st := tryOp ok st (.renameF dst oldTmpAbs)
  let st := tryOp ok st (.renameF newTmpAbs dst)
  let st := tryOp ok st
    (if goos = "windows"
      then .renameF oldTmpAbs (pathJoin tmpOSDir (pathBase oldTmpAbs))
      else .removeF oldTmpAbs)
  tryOp ok st (.removeF src)

/-- The complete, ordered syscall sequence of the replace protocol: staging
(`create`/`copy`/`close` of `<binary>.new`) strictly precedes the rename of
the running executable to `<binary>.old`, which precedes the rename of
`<binary>.new` onto the destination, which precedes the disposal of
`<binary>.old` (deletion, or on Windows a rename into the OS temp directory),
which precedes the removal of the source file. -/
def replaceProtocolOps (goos tmpOSDir dst src : String) : List FsOp :=
  [.openF src, .statF dst,
   .createF (pathJoin (pathDir dst) (pathBase dst ++ ".new")),
   .copyF src (pathJoin (pathDir dst) (pathBase dst ++ ".new")),
   .closeF (pathJoin (pathDir dst) (pathBase dst ++ ".new")),
   .closeF src,
   .renameF dst (pathJoin (pathDir dst) (pathBase dst ++ ".old")),
   .renameF (pathJoin (pathDir dst) (pathBase dst ++ ".new")) dst,
   (if goos = "windows"
     then .renameF (pathJoin (pathDir dst) (pathBase dst ++ ".old"))
            (pathJoin tmpOSDir (pathBase (pathJoin (pathDir dst) (pathBase dst ++ ".old"))))
     else .removeF (pathJoin (pathDir dst) (pathBase dst ++ ".old"))),
   .removeF src]

/-! ## Helper lemmas -/

/-- The step function `tryOp` preserves the protocol invariant: the trace performed so far is a
prefix of the ops attempted so far, and equals it while no failure has
occurred. -/
lemma tryOp_inv {st : List FsOp × Bool} {L : List FsOp} (ok : FsOp → Bool) (op : FsOp)
    (h1 : ∃ t, st.1 ++ t = L) (h2 : st.2 = true → st.1 = L) :
    (∃ t, (tryOp ok st op).1 ++ t = L ++ [op])
    ∧ ((tryOp ok st op).2 = true → (tryOp ok st op).1 = L ++ [op]) := by
  unfold tryOp
  split_ifs with hb hf
  · exact ⟨⟨[op], by rw [h2 hb]⟩, by simp⟩
  · exact ⟨⟨[], by rw [h2 hb, List.append_nil]⟩, fun _ => by rw [h2 hb]⟩
  · obtain ⟨t, ht⟩ := h1
    refine ⟨⟨t ++ [op], by rw [← List.append_assoc, ht]⟩, fun hh => absurd hh hb⟩

/-- Two suffixes of the same string are comparable as lists. -/
lemma goEndsWith_comparable {s a b : String} (ha : goEndsWith s a = true)
    (hb : goEndsWith s b = true) : a.data <:+ b.data ∨ b.data <:+ a.data :=
  List.suffix_or_suffix_of_suffix
    (List.isSuffixOf_iff_suffix.mp ha) (List.isSuffixOf_iff_suffix.mp hb)

/-- If `a` is a suffix of `s` and `b` is incomparable with `a`, then `b` is
not a suffix of `s`. -/
lemma goEndsWith_excl {s a b : String} (ha : goEndsWith s a = true)
    (hab : ¬ (a.data <:+ b.data) ∧ ¬ (b.data <:+ a.data)) : goEndsWith s b = false := by
  cases hgb : goEndsWith s b
  · rfl
  · rcases goEndsWith_comparable ha hgb with h | h
    · exact absurd h hab.1
    · exact absurd h hab.2

/-! ## C10 — `Compare` on invalid input -/

/-- C10: `Compare fromVer toVer` is asymmetric on invalid input by
construction: an unparsable `fromVer` yields 1 (upgrade available) whatever
`toVer` is; a parsable `fromVer` with unparsable `toVer` yields -1 (never
upgradeable); with both valid it is the semver comparison of `toVer` against
`fromVer`. -/
theorem compare_invalid_asymmetric (fromVer toVer : String) :
    (semverMake fromVer = none → Compare fromVer toVer = 1)
    ∧ (∀ fv, semverMake fromVer = some fv → semverMake toVer = none →
        Compare fromVer toVer = -1)
    ∧ (∀ fv tv, semverMake fromVer = some fv → semverMake toVer = some tv →
        Compare fromVer toVer = semverCompare tv fv) := by
  refine ⟨fun h => ?_, fun fv hf ht => ?_, fun fv tv hf ht => ?_⟩ <;>
    simp [Compare, *]

/-- Witness for C10 at concrete versions. -/
theorem compare_invalid_asymmetric_witness :
    Compare "bogus" "1.0.0" = 1 ∧ Compare "1.0.0" "bogus" = -1
    ∧ Compare "1.0.0" "1.2.0" = semverCompare ⟨1, 2, 0, [], []⟩ ⟨1, 0, 0, [], []⟩ := by
  refine ⟨(compare_invalid_asymmetric "bogus" "1.0.0").1 (by decide),
    (compare_invalid_asymmetric "1.0.0" "bogus").2.1 ⟨1, 0, 0, [], []⟩ (by decide) (by decide),
    (compare_invalid_asymmetric "1.0.0" "1.2.0").2.2 ⟨1, 0, 0, [], []⟩ ⟨1, 2, 0, [], []⟩
      (by decide) (by decide)⟩

/-! ## C9 — the archive format detector -/

/-- C9: `detectFileType` is total over a closed set and case-insensitive:
its value is `tar.gz` exactly for the suffixes `.tar.gz` and `.tgz`,
`tar.bz2` exactly for `.tar.bz2`, `zip` exactly for `.zip`, an error exactly
when no supported suffix matches, and two strings with the same
lower-casing detect identically. -/
theorem detect_total_case_insensitive (s t : String)
    (hlow : strToLower s = strToLower t) :
    detectFileType s = detectFileType t
    ∧ (detectFileType s = .ok "tar.gz" ↔
        (goEndsWith (strToLower s) ".tar.gz" || goEndsWith (strToLower s) ".tgz") = true)
    ∧ (detectFileType s = .ok "tar.bz2" ↔ goEndsWith (strToLower s) ".tar.bz2" = true)
    ∧ (detectFileType s = .ok "zip" ↔ goEndsWith (strToLower s) ".zip" = true)
    ∧ ((∃ e, detectFileType s = .error e) ↔
        (goEndsWith (strToLower s) ".tar.gz" || goEndsWith (strToLower s) ".tgz"
          || goEndsWith (strToLower s) ".tar.bz2"
          || goEndsWith (strToLower s) ".zip") = false) := by
  have e1 : goEndsWith (strToLower s) ".tar.gz" = true →
      goEndsWith (strToLower s) ".tar.bz2" = false := fun h => goEndsWith_excl h (by decide)
  have e2 : goEndsWith (strToLower s) ".tar.gz" = true →
      goEndsWith (strToLower s) ".zip" = false := fun h => goEndsWith_excl h (by decide)
  have e3 : goEndsWith (strToLower s) ".tgz" = true →
      goEndsWith (strToLower s) ".tar.bz2" = false := fun h => goEndsWith_excl h (by decide)
  have e4 : goEndsWith (strToLower s) ".tgz" = true →
      goEndsWith (strToLower s) ".zip" = false := fun h => goEndsWith_excl h (by decide)
  have e5 : goEndsWith (strToLower s) ".tar.bz2" = true →
      goEndsWith (strToLower s) ".zip" = false := fun h => goEndsWith_excl h (by decide)
  refine ⟨by simp only [detectFileType, hlow], ?_, ?_, ?_, ?_⟩ <;>
  · simp only [detectFileType]
    cases h1 : goEndsWith (strToLower s) ".tar.gz" <;>
      cases h1' : goEndsWith (strToLower s) ".tgz" <;>
        cases h2 : goEndsWith (strToLower s) ".tar.bz2" <;>
          cases h3 : goEndsWith (strToLower s) ".zip" <;>
            simp_all

/-- Witness for C9 at the spec's own example pair. -/
theorem detect_total_case_insensitive_witness :
    detectFileType "archive.TAR.GZ" = detectFileType "archive.tar.gz"
    ∧ detectFileType "archive.TAR.GZ" = .ok "tar.gz" := by
  have h := detect_total_case_insensitive "archive.TAR.GZ" "archive.tar.gz" (by decide)
  exact ⟨h.1, h.2.1.mpr (by decide)⟩

/-! ## C8 — the `Update` decision -/

/-- C8: given a successful resolution and syntactically valid versions, the
`Update` decision fails with `No new release found` exactly when the resolved
tag equals the current version or does not compare strictly newer; a
resolution failure (`No binary releases found`) passes through unchanged and
is a distinct outcome. -/
theorem update_no_newer (ver fname url cur : String) (vv cv : SemVersion)
    (hv : semverMake ver = some vv) (hc : semverMake cur = some cv) :
    (updateDecision (.ok (ver, fname, url)) cur = .error "No new release found"
      ↔ (ver = cur ∨ semverCompare vv cv ≤ 0))
    ∧ updateDecision (.error "No binary releases found") cur
        = .error "No binary releases found"
    ∧ "No new release found" ≠ "No binary releases found" := by
  refine ⟨?_, rfl, by decide⟩
  simp only [updateDecision, hv, hc, Option.getD_some]
  by_cases he : ver = cur
  · simp [he]
  · simp only [he, if_false, false_or]
    split_ifs with hlt
    · simp only [true_iff]
      omega
    · constructor
      · intro h
        exact absurd h (by simp)
      · intro h
        omega

/-- Witness for C8: same tag as the current version. -/
theorem update_no_newer_witness :
    updateDecision (.ok ("1.0.0", "f", "u")) "1.0.0" = .error "No new release found" :=
  (update_no_newer "1.0.0" "f" "u" "1.0.0" ⟨1, 0, 0, [], []⟩ ⟨1, 0, 0, [], []⟩
    (by decide) (by decide)).1.mpr (Or.inl rfl)

/-! ## C4 — corrupt stream mid-entry -/

/-- C4: a read failure mid-entry during the streaming copy makes
`extractArchive` panic (aborting the program) instead of returning an
ordinary error: the copy loop calls `panic(err)` on any non-EOF read error. -/
theorem tar_read_failure_panics :
    (extractArchive (fun _ => true)
      [.ok ⟨"f", false, [1, 2], true, 420, 0, 0, 0, 0⟩] "/d" [("/d", .dir {})]).status
    = .panicked := by decide

/-! ## C6 — pre-release exclusion -/

/-- C6: with pre-releases disallowed, a release with a valid tag is skipped
by the pre-release rule exactly when the feed flags it or its version carries
a pre-release suffix — otherwise candidate construction behaves as with
pre-releases allowed; and on the spec's example feed (stable `1.0.0`,
pre-release `1.1.0-beta1`), resolution picks `1.0.0`'s asset although the
beta is numerically higher. -/
theorem latest_skips_prereleases :
    (∀ (n o a : String) (r : GhRelease) (v : SemVersion), semverMake r.tag = some v →
      releaseCandidate false n o a r =
        if r.prerelease ∨ v.pre ≠ [] then none else releaseCandidate true n o a r)
    ∧ latestFrom false "app" "linux" "amd64"
        [⟨"r1", "1.0.0", false, [⟨"u1", 1, "app_1.0.0_linux_amd64.bz2", 5⟩]⟩,
         ⟨"r2", "1.1.0-beta1", true, [⟨"u2", 2, "app_1.1.0-beta1_linux_amd64.bz2", 6⟩]⟩]
      = .ok ("1.0.0", "app_1.0.0_linux_amd64.bz2", "u1")
    ∧ semverCompare ⟨1, 1, 0, [⟨"beta1", 0, false⟩], []⟩ ⟨1, 0, 0, [], []⟩ > 0 := by
  refine ⟨fun n o a r v hv => ?_, by decide, by decide⟩
  simp only [releaseCandidate, hv]
  by_cases hp : r.prerelease <;> by_cases hpre : v.pre = [] <;> simp [hp, hpre]

/-- Witness for C6: the pre-release from the example feed is skipped. -/
theorem latest_skips_prereleases_witness :
    releaseCandidate false "app" "linux" "amd64"
      ⟨"r2", "1.1.0-beta1", true, [⟨"u2", 2, "app_1.1.0-beta1_linux_amd64.bz2", 6⟩]⟩
    = none := by
  have h := latest_skips_prereleases.1 "app" "linux" "amd64"
    ⟨"r2", "1.1.0-beta1", true, [⟨"u2", 2, "app_1.1.0-beta1_linux_amd64.bz2", 6⟩]⟩
    ⟨1, 1, 0, [⟨"beta1", 0, false⟩], []⟩ (by decide)
  rw [h]; decide

/-! ## C3 — tar extraction and `..` entries

The skip check of untar.go:160 tests `fileInfo.Name()`, which `archive/tar`
computes as the *base* of the header name — not the full name.  An entry
named `../x` therefore is not skipped (its base `x` contains no `..`) and is
extracted, while the claim as stated requires it to be skipped. -/

/-- C3 counterexample: the entry named `../x` — whose name contains `..` —
is *not* skipped: extraction returns no error and writes the file (at `/x`,
outside the destination `/d`). -/
theorem tar_dotdot_counterexample :
    containsDotDot "../x".data = true
    ∧ (extractArchive (fun _ => true)
        [.ok ⟨"../x", false, [1], false, 420, 7, 8, 3, 4⟩] "/d" [("/d", .dir {})]).status
      = .ok
    ∧ ((extractArchive (fun _ => true)
        [.ok ⟨"../x", false, [1], false, 420, 7, 8, 3, 4⟩] "/d" [("/d", .dir {})]).fs).lookup "/x"
      = some (.file [1] ⟨some 420, some (3, 4), some (7, 8)⟩) := by decide

/-- C3 (amended): an entry whose *file-info name* (the base of the header
name, cleaned first for directories) contains `..` is silently skipped —
state and outcome are exactly those of the archive without it, wherever the
entry sits in the stream. -/
theorem tar_skips_dotdot_basename (env : MetaOracle) (directory : String)
    (pre rest : List TarItem) (h : TarHeader) (fs : FS)
    (post : List (String × TarHeader))
    (hskip : containsDotDot (tarFiName h).data = true) :
    extractLoop env directory (pre ++ .ok h :: rest) fs post
    = extractLoop env directory (pre ++ rest) fs post := by
  induction pre generalizing fs post with
  | nil => simp [extractLoop, hskip]
  | cons it pre ih =>
    cases it with
    | error e => simp [extractLoop]
    | ok h' =>
      simp only [List.cons_append, extractLoop]
      split_ifs <;> first | rfl | exact ih _ _

/-- Witness for C3 (amended): an entry whose base name is `a..b` is skipped. -/
theorem tar_skips_dotdot_basename_witness :
    extractLoop (fun _ => true) "/d"
      [.ok ⟨"a..b", false, [1], false, 420, 0, 0, 0, 0⟩] [("/d", .dir {})] []
    = extractLoop (fun _ => true) "/d" [] [("/d", .dir {})] [] := by
  have h := tar_skips_dotdot_basename (fun _ => true) "/d" [] []
    ⟨"a..b", false, [1], false, 420, 0, 0, 0, 0⟩ [("/d", .dir {})] [] (by decide)
  simpa using h

/-! ## C2 — zip-slip rejection -/

/-- Processing a block of accepted entries just records their paths and
applies their filesystem effects, before continuing with the remainder. -/
lemma unzipLoop_append_pass (dest : String) (pre : List ZipFile)
    (hpre : ∀ f ∈ pre, zipPasses dest f = true) :
    ∀ (l : List ZipFile) (names : List String) (fs : FS),
    unzipLoop dest (pre ++ l) names fs
      = unzipLoop dest l (names ++ pre.map (zipEntryPath dest)) (zipProcFs dest pre fs) := by
  induction pre with
  | nil => intro l names fs; simp [zipProcFs]
  | cons f rest ih =>
    intro l names fs
    have hf : zipPasses dest f = true := hpre f (List.mem_cons_self _ _)
    simp only [List.cons_append, unzipLoop, hf, Bool.true_eq_false, not_true_eq_false,
      if_false, ite_false, not_true]
    rw [List.append_eq, ih (fun g hg => hpre g (List.mem_cons_of_mem _ hg)) l]
    simp [zipProcFs]

/-- C2: the first entry whose joined path escapes the destination makes
`unzip` stop with an `illegal file path` error: nothing is created for it or
for later entries, the entries already processed keep their effect on disk,
and every recorded path stays within the destination. -/
theorem unzip_rejects_escaping_entries (dest : String) (fs : FS)
    (pre rest : List ZipFile) (bad : ZipFile)
    (hpre : ∀ f ∈ pre, zipPasses dest f = true)
    (hbad : zipPasses dest bad = false) :
    unzip (pre ++ bad :: rest) dest fs
      = ⟨pre.map (zipEntryPath dest),
         .error (zipEntryPath dest bad ++ ": illegal file path"),
         zipProcFs dest pre fs⟩
    ∧ ∀ p ∈ (unzip (pre ++ bad :: rest) dest fs).names,
        goStartsWith p (pathClean dest ++ "/") = true := by
  have hrun : unzip (pre ++ bad :: rest) dest fs
      = ⟨pre.map (zipEntryPath dest),
         .error (zipEntryPath dest bad ++ ": illegal file path"),
         zipProcFs dest pre fs⟩ := by
    unfold unzip
    rw [unzipLoop_append_pass dest pre hpre]
    simp [unzipLoop, hbad]
  refine ⟨hrun, ?_⟩
  rw [hrun]
  intro p hp
  rcases List.mem_map.mp hp with ⟨f, hf, rfl⟩
  exact hpre f hf

/-- Witness for C2: a good entry followed by a `../evil` entry. -/
theorem unzip_rejects_escaping_entries_witness :
    unzip [⟨"good.txt", false, 420, [7]⟩, ⟨"../evil", false, 420, [9]⟩] "/d" [("/d", .dir {})]
      = ⟨["/d"].map (fun d => d ++ "/good.txt"),
         .error ("/evil" ++ ": illegal file path"),
         zipProcFs "/d" [⟨"good.txt", false, 420, [7]⟩] [("/d", .dir {})]⟩ := by
  have h := (unzip_rejects_escaping_entries "/d" [("/d", .dir {})]
    [⟨"good.txt", false, 420, [7]⟩] [] ⟨"../evil", false, 420, [9]⟩
    (by decide) (by decide)).1
  exact Eq.trans h (by decide)

/-! ## C5 — best-effort metadata

The *shape* of a filesystem — which paths hold directories and which hold
files with which bytes — forgets the propagated metadata.  Extraction's
control flow and shape must not depend on the metadata oracle. -/

lemma fsShape_filter (fs : FS) (p : String) :
    fsShape (fs.filter (fun pn => pn.1 != p))
      = (fsShape fs).filter (fun pn => pn.1 != p) := by
  induction fs with
  | nil => rfl
  | cons pn fs ih =>
    simp only [fsShape, List.map_cons, List.filter_cons] at *
    cases h : (pn.1 != p) <;> simp [h, ih]

lemma fsShape_fsSet (fs : FS) (p : String) (n : FsNode) :
    fsShape (fsSet fs p n) = (p, nodeShape n) :: (fsShape fs).filter (fun pn => pn.1 != p) := by
  show (p, nodeShape n) :: fsShape (fs.filter (fun pn => pn.1 != p))
    = (p, nodeShape n) :: (fsShape fs).filter (fun pn => pn.1 != p)
  rw [fsShape_filter]

lemma lookup_fsShape (fs : FS) (p : String) :
    (fsShape fs).lookup p = (fs.lookup p).map nodeShape := by
  induction fs with
  | nil => rfl
  | cons pn fs ih =>
    simp only [fsShape, List.map_cons, List.lookup] at *
    cases h : (p == pn.1) <;> simp [h, ih]

lemma fsIsDir_shape {fs fs' : FS} (h : fsShape fs = fsShape fs') (p : String) :
    fsIsDir fs p = fsIsDir fs' p := by
  have hl : (fs.lookup p).map nodeShape = (fs'.lookup p).map nodeShape := by
    rw [← lookup_fsShape, ← lookup_fsShape, h]
  unfold fsIsDir
  cases hx : fs.lookup p with
  | none =>
    cases hy : fs'.lookup p with
    | none => rfl
    | some b => rw [hx, hy] at hl; simp at hl
  | some a =>
    cases hy : fs'.lookup p with
    | none => rw [hx, hy] at hl; simp at hl
    | some b =>
      rw [hx, hy] at hl
      simp only [Option.map_some'] at hl
      cases a <;> cases b <;> simp_all [nodeShape]

lemma nodeShape_setMeta (op : MetaOp) (n : FsNode) :
    nodeShape (setMeta op n) = nodeShape n := by
  cases n <;> rfl

lemma fsShape_applyMeta (env : MetaOracle) (op : MetaOp) (fs : FS) :
    fsShape (applyMeta env op fs) = fsShape fs := by
  unfold applyMeta
  split_ifs with henv
  · induction fs with
    | nil => rfl
    | cons pn fs ih =>
      simp only [List.map_cons, fsShape] at *
      by_cases hp : pn.1 = metaPath op <;> simp [hp, ih, nodeShape_setMeta]
  · rfl

lemma fsShape_mkdir {fs fs' : FS} (h : fsShape fs = fsShape fs') (p : String) :
    fsShape (mkdirModel fs p) = fsShape (mkdirModel fs' p) := by
  simp only [mkdirModel, fsIsDir_shape h p]
  split_ifs with hd
  · exact h
  · rw [fsShape_fsSet, fsShape_fsSet, h]

lemma fsShape_applyPost (env : MetaOracle) (post : List (String × TarHeader)) (fs : FS) :
    fsShape (applyPost env post fs) = fsShape fs := by
  induction post generalizing fs with
  | nil => rfl
  | cons ph post ih =>
    simp only [applyPost, List.foldl_cons] at *
    rw [ih, fsShape_applyMeta, fsShape_applyMeta]

/-- The extraction loop's outcome and filesystem shape do not depend on the
metadata oracle: starting from shape-equal filesystems, any two oracles give
the same status and shape-equal results. -/
lemma extractLoop_oracle_indep (env env' : MetaOracle) (directory : String) :
    ∀ (items : List TarItem) (fs fs' : FS) (post : List (String × TarHeader)),
    fsShape fs = fsShape fs' →
    (extractLoop env directory items fs post).status
      = (extractLoop env' directory items fs' post).status
    ∧ fsShape (extractLoop env directory items fs post).fs
      = fsShape (extractLoop env' directory items fs' post).fs := by
  intro items
  induction items with
  | nil =>
    intro fs fs' post h
    exact ⟨rfl, by simp [extractLoop, fsShape_applyPost, h]⟩
  | cons it rest ih =>
    intro fs fs' post h
    cases it with
    | error e => exact ⟨rfl, h⟩
    | ok hd =>
      simp only [extractLoop]
      rw [← fsIsDir_shape h (pathJoin directory (pathDir hd.name))]
      split_ifs with hskip hdir hre hc
      · exact ih fs fs' post h
      · refine ih _ _ _ ?_
        simp only [fsShape_applyMeta]
        exact fsShape_mkdir h _
      · exact ⟨rfl, by simp only [fsShape_fsSet]; rw [h]⟩
      · exact ⟨rfl, by simp only [fsShape_fsSet]; rw [fsShape_mkdir h _]⟩
      · refine ih _ _ _ ?_
        simp only [fsShape_applyMeta, fsShape_fsSet]
        rw [h]
      · refine ih _ _ _ ?_
        simp only [fsShape_applyMeta, fsShape_fsSet]
        rw [fsShape_mkdir h _]

/-- C5: extraction never fails because a `chown`/`chmod`/`chtimes` call
failed: for any two metadata oracles (in particular all-succeed and
all-fail), `extractArchive` produces the same status and places the same
bytes at the same paths. -/
theorem tar_metadata_best_effort (env env' : MetaOracle) (items : List TarItem)
    (directory : String) (fs : FS) :
    (extractArchive env items directory fs).status
      = (extractArchive env' items directory fs).status
    ∧ fsShape (extractArchive env items directory fs).fs
      = fsShape (extractArchive env' items directory fs).fs :=
  extractLoop_oracle_indep env env' directory items fs fs [] rfl

/-! ## C1 — the atomic replace protocol -/

/-- C1: whatever succeeds or fails, the trace of syscalls `replaceFile`
performs is a prefix of `replaceProtocolOps` — the new binary is fully
written and closed at `<binary>.new` before the running executable is
renamed to `<binary>.old`, only then is `<binary>.new` renamed onto the
destination, and only after that is `<binary>.old` disposed of (deleted, or
renamed into the OS temp directory on Windows); on success the whole
sequence is performed. -/
theorem replace_protocol (goos tmpOSDir dst src : String) (ok : FsOp → Bool) :
    (∃ t, (replaceFile goos tmpOSDir ok dst src).1 ++ t
        = replaceProtocolOps goos tmpOSDir dst src)
    ∧ ((replaceFile goos tmpOSDir ok dst src).2 = true →
        (replaceFile goos tmpOSDir ok dst src).1
          = replaceProtocolOps goos tmpOSDir dst src) := by
  have h1 := @tryOp_inv ([], true) [] ok (.openF src)
    ⟨[], rfl⟩ (fun _ => rfl)
  have h2 := tryOp_inv ok (.statF dst) h1.1 h1.2
  have h3 := tryOp_inv ok (.createF (pathJoin (pathDir dst) (pathBase dst ++ ".new")))
    h2.1 h2.2
  have h4 := tryOp_inv ok (.copyF src (pathJoin (pathDir dst) (pathBase dst ++ ".new")))
    h3.1 h3.2
  have h5 := tryOp_inv ok (.closeF (pathJoin (pathDir dst) (pathBase dst ++ ".new")))
    h4.1 h4.2
  have h6 := tryOp_inv ok (.closeF src) h5.1 h5.2
  have h7 := tryOp_inv ok (.renameF dst (pathJoin (pathDir dst) (pathBase dst ++ ".old")))
    h6.1 h6.2
  have h8 := tryOp_inv ok (.renameF (pathJoin (pathDir dst) (pathBase dst ++ ".new")) dst)
    h7.1 h7.2
  have h9 := tryOp_inv ok
    (if goos = "windows"
      then .renameF (pathJoin (pathDir dst) (pathBase dst ++ ".old"))
             (pathJoin tmpOSDir (pathBase (pathJoin (pathDir dst) (pathBase dst ++ ".old"))))
      else .removeF (pathJoin (pathDir dst) (pathBase dst ++ ".old")))
    h8.1 h8.2
  have h10 := tryOp_inv ok (.removeF src) h9.1 h9.2
  constructor
  · obtain ⟨t, ht⟩ := h10.1
    refine ⟨t, ?_⟩
    simp only [replaceFile, replaceProtocolOps]
    simpa using ht
  · intro hs
    have hs' : (replaceFile goos tmpOSDir ok dst src).2 = true := hs
    simp only [replaceFile, replaceProtocolOps]
    have := h10.2 (by simpa [replaceFile] using hs')
    simpa using this

/-- Witness for C1: with every syscall succeeding on Linux, the full protocol
sequence is performed in order. -/
theorem replace_protocol_witness :
    (replaceFile "linux" "/tmp" (fun _ => true) "/usr/local/bin/app" "/tmp/stage/app").1
      = replaceProtocolOps "linux" "/tmp" "/usr/local/bin/app" "/tmp/stage/app" :=
  (replace_protocol "linux" "/tmp" "/usr/local/bin/app" "/tmp/stage/app"
    (fun _ => true)).2 (by decide)

/-! ## C7 — order lemmas for the semver comparator

`Latest` scans the candidates with a strict-maximum fold; to show its result
is maximal, the comparator must behave as a total order.  The lemmas below
establish asymmetry, congruence of the `= 0` kernel, and transitivity,
bottom-up from the byte-wise string order. -/

lemma char_eq_of_toNat_eq {c d : Char} (h : c.toNat = d.toNat) : c = d :=
  Char.eq_of_val_eq (UInt32.eq_of_val_eq (Fin.eq_of_val_eq h))

lemma string_eq_of_data_eq {s t : String} (h : s.data = t.data) : s = t := by
  cases s; cases t; simp only at h; rw [h]

lemma charListLt_asymm : ∀ {a b : List Char},
    charListLt a b = true → charListLt b a = false := by
  intro a
  induction a with
  | nil => intro b h; cases b <;> simp_all [charListLt]
  | cons c cs ih =>
    intro b h
    cases b with
    | nil => simp [charListLt] at h
    | cons d ds =>
      simp only [charListLt] at h ⊢
      split_ifs at h ⊢ with h1 h2 h3 h4 <;> first | rfl | omega | exact ih h | simp_all

lemma charListLt_trans : ∀ {a b c : List Char},
    charListLt a b = true → charListLt b c = true → charListLt a c = true := by
  intro a
  induction a with
  | nil =>
    intro b c h1 h2
    cases b <;> cases c <;> simp_all [charListLt]
  | cons x xs ih =>
    intro b c h1 h2
    cases b with
    | nil => simp [charListLt] at h1
    | cons y ys =>
      cases c with
      | nil => simp [charListLt] at h2
      | cons z zs =>
        simp only [charListLt] at h1 h2 ⊢
        split_ifs at h1 h2 ⊢ <;> first | rfl | omega | exact ih h1 h2 | simp_all

lemma charListLt_total : ∀ {a b : List Char},
    a ≠ b → charListLt a b = true ∨ charListLt b a = true := by
  intro a
  induction a with
  | nil =>
    intro b h
    cases b with
    | nil => exact absurd rfl h
    | cons d ds => left; rfl
  | cons c cs ih =>
    intro b h
    cases b with
    | nil => right; rfl
    | cons d ds =>
      simp only [charListLt]
      by_cases h1 : c.toNat < d.toNat
      · left; simp [h1]
      · by_cases h2 : d.toNat < c.toNat
        · right; simp [h1, h2]
        · have hc : c = d := char_eq_of_toNat_eq (by omega)
          subst hc
          have hcs : cs ≠ ds := fun hh => h (by rw [hh])
          rcases ih hcs with hl | hl
          · left; simpa [h1, h2] using hl
          · right; simpa [h1, h2] using hl

lemma prCompare_self (x : PRVersion) : prCompare x x = 0 := by
  unfold prCompare
  split_ifs <;> simp_all

lemma prCompare_num_zero {x y : PRVersion} (hx : x.isNum = true) (hy : y.isNum = true)
    (h : prCompare x y = 0) : x.num = y.num := by
  unfold prCompare at h
  split_ifs at h <;> simp_all

lemma prCompare_str_zero {x y : PRVersion} (hx : x.isNum = false) (hy : y.isNum = false)
    (h : prCompare x y = 0) : x.str = y.str := by
  unfold prCompare at h
  split_ifs at h <;> simp_all

lemma prCompare_num_neg {x y : PRVersion} (hx : x.isNum = true) (hy : y.isNum = true)
    (h : prCompare x y < 0) : x.num < y.num := by
  unfold prCompare at h
  split_ifs at h <;> try simp_all
  all_goals omega

lemma prCompare_antisym (x y : PRVersion) : prCompare x y = - prCompare y x := by
  unfold prCompare
  by_cases hx : x.isNum <;> by_cases hy : y.isNum
  · split_ifs <;> simp_all <;> omega
  · split_ifs <;> simp_all
  · split_ifs <;> simp_all
  · by_cases he : x.str = y.str
    · simp only [he]
      split_ifs <;> simp_all
    · have hd : x.str.data ≠ y.str.data := fun hh => he (string_eq_of_data_eq hh)
      rcases charListLt_total hd with hl | hl <;>
        · have ha := charListLt_asymm hl
          split_ifs <;> simp_all

lemma prCompare_zero_left {x y : PRVersion} (h : prCompare x y = 0) (z : PRVersion) :
    prCompare x z = prCompare y z := by
  by_cases hx : x.isNum <;> by_cases hy : y.isNum
  · have hn : x.num = y.num := prCompare_num_zero hx hy h
    unfold prCompare
    simp [hx, hy, hn]
  · exfalso
    unfold prCompare at h
    split_ifs at h <;> simp_all
  · exfalso
    unfold prCompare at h
    split_ifs at h <;> simp_all
  · have hs : x.str = y.str := prCompare_str_zero (by simpa using hx) (by simpa using hy) h
    unfold prCompare
    simp [hx, hy, hs]

lemma prCompare_zero_right {x y : PRVersion} (h : prCompare x y = 0) (z : PRVersion) :
    prCompare z x = prCompare z y := by
  have h' : prCompare y x = 0 := by
    have := prCompare_antisym x y
    omega
  have h1 := prCompare_antisym z x
  have h2 := prCompare_antisym z y
  have h3 := prCompare_zero_left h' z
  omega

lemma prCompare_str_neg {x y : PRVersion} (hx : x.isNum = false) (hy : y.isNum = false)
    (h : prCompare x y < 0) : charListLt x.str.data y.str.data = true := by
  unfold prCompare at h
  split_ifs at h with c1 c2 c3 cn1 cn2 cs1 cs2
  · simp_all
  · omega
  · omega
  · omega
  · simp_all
  · omega
  · omega
  · rcases charListLt_total (fun hh : x.str.data = y.str.data =>
      cs1 (string_eq_of_data_eq hh)) with h' | h'
    · exact h'
    · exact absurd h' cs2

lemma prCompare_neg_trans {x y z : PRVersion}
    (h1 : prCompare x y < 0) (h2 : prCompare y z < 0) : prCompare x z < 0 := by
  by_cases hx : x.isNum <;> by_cases hy : y.isNum <;> by_cases hz : z.isNum
  · -- numeric throughout
    have hn1 : x.num < y.num := prCompare_num_neg hx hy h1
    have hn2 : y.num < z.num := prCompare_num_neg hy hz h2
    unfold prCompare
    split_ifs <;> simp_all <;> omega
  · -- x, y numeric; z alphanumeric: x numeric below z
    unfold prCompare
    split_ifs <;> simp_all
  · -- y alphanumeric, z numeric: prCompare y z = 1, contradiction
    exfalso
    unfold prCompare at h2
    split_ifs at h2 <;> simp_all
  · -- x numeric, z alphanumeric
    unfold prCompare
    split_ifs <;> simp_all
  · -- x alphanumeric, y numeric: prCompare x y = 1, contradiction
    exfalso
    unfold prCompare at h1
    split_ifs at h1 <;> simp_all
  · exfalso
    unfold prCompare at h1
    split_ifs at h1 <;> simp_all
  · -- y alphanumeric, z numeric: contradiction
    exfalso
    unfold prCompare at h2
    split_ifs at h2 <;> simp_all
  · -- alphanumeric throughout: byte-wise order is transitive
    have hs1 : charListLt x.str.data y.str.data = true :=
      prCompare_str_neg (by simpa using hx) (by simpa using hy) h1
    have hs2 : charListLt y.str.data z.str.data = true :=
      prCompare_str_neg (by simpa using hy) (by simpa using hz) h2
    have hs : charListLt x.str.data z.str.data = true := charListLt_trans hs1 hs2
    have hne : x.str ≠ z.str := by
      intro hh
      rw [hh] at hs1
      have := charListLt_asymm hs2
      rw [this] at hs1
      exact Bool.false_ne_true hs1
    have hzx : charListLt z.str.data x.str.data = false := charListLt_asymm hs
    unfold prCompare
    split_ifs <;> simp_all

lemma preListCompare_self (l : List PRVersion) : preListCompare l l = 0 := by
  induction l with
  | nil => rfl
  | cons x xs ih => simp [preListCompare, prCompare_self, ih]

lemma preListCompare_antisym : ∀ (l m : List PRVersion),
    preListCompare l m = - preListCompare m l
  | [], [] => by simp [preListCompare]
  | [], _ :: _ => by simp [preListCompare]
  | _ :: _, [] => by simp [preListCompare]
  | x :: xs, y :: ys => by
    have ha := prCompare_antisym x y
    have ih := preListCompare_antisym xs ys
    simp only [preListCompare]
    by_cases hc : prCompare x y = 0
    · have hc' : prCompare y x = 0 := by omega
      simp [hc, hc', ih]
    · have hc' : prCompare y x ≠ 0 := by omega
      simp only [ne_eq, hc, hc', not_false_eq_true, if_true, ite_true]
      omega

lemma preListCompare_zero_left : ∀ {l m : List PRVersion}, preListCompare l m = 0 →
    ∀ k, preListCompare l k = preListCompare m k
  | [], [], _, _ => rfl
  | [], _ :: _, h, _ => by simp [preListCompare] at h
  | _ :: _, [], h, _ => by simp [preListCompare] at h
  | x :: xs, y :: ys, h, k => by
    simp only [preListCompare] at h
    by_cases hc : prCompare x y = 0
    · rw [if_neg (by simp [hc])] at h
      cases k with
      | nil => simp [preListCompare]
      | cons z zs =>
        simp only [preListCompare]
        rw [prCompare_zero_left hc z]
        by_cases hz : prCompare y z = 0
        · simp [hz, preListCompare_zero_left h zs]
        · simp [hz]
    · rw [if_pos hc] at h
      exact absurd h hc

lemma preListCompare_neg_trans : ∀ {a b c : List PRVersion},
    preListCompare a b < 0 → preListCompare b c < 0 → preListCompare a c < 0
  | [], [], _, h1, _ => by simp [preListCompare] at h1
  | [], _ :: _, [], _, h2 => by simp [preListCompare] at h2
  | [], _ :: _, _ :: _, _, _ => by simp [preListCompare]
  | _ :: _, [], _, h1, _ => by simp [preListCompare] at h1
  | _ :: _, _ :: _, [], _, h2 => by simp [preListCompare] at h2
  | x :: xs, y :: ys, z :: zs, h1, h2 => by
    simp only [preListCompare] at h1 h2 ⊢
    by_cases hxy : prCompare x y = 0
    · rw [if_neg (by simp [hxy])] at h1
      by_cases hyz : prCompare y z = 0
      · rw [if_neg (by simp [hyz])] at h2
        have hxz : prCompare x z = 0 := by rw [prCompare_zero_left hxy z, hyz]
        rw [if_neg (by simp [hxz])]
        exact preListCompare_neg_trans h1 h2
      · rw [if_pos hyz] at h2
        have hxz : prCompare x z = prCompare y z := prCompare_zero_left hxy z
        rw [if_pos (by omega)]
        omega
    · rw [if_pos hxy] at h1
      by_cases hyz : prCompare y z = 0
      · have hyz' : prCompare x y = prCompare x z := prCompare_zero_right hyz x
        rw [if_pos (by omega)]
        omega
      · rw [if_pos hyz] at h2
        have hxz : prCompare x z < 0 := prCompare_neg_trans h1 h2
        rw [if_pos (by omega)]
        exact hxz

lemma preCmp_self (l : List PRVersion) : preCmp l l = 0 := by
  unfold preCmp
  split_ifs <;> simp_all [preListCompare_self]

lemma preCmp_antisym (a b : List PRVersion) : preCmp a b = - preCmp b a := by
  unfold preCmp
  have h := preListCompare_antisym a b
  split_ifs <;> simp_all <;> omega

lemma preCmp_zero_left {a b : List PRVersion} (h : preCmp a b = 0) (c : List PRVersion) :
    preCmp a c = preCmp b c := by
  unfold preCmp at h ⊢
  split_ifs at h with d1 d2 d3 <;> try omega
  · rw [d1.1, d1.2]
  · have hc := preListCompare_zero_left h c
    split_ifs <;> simp_all

lemma preCmp_neg_trans : ∀ {a b c : List PRVersion},
    preCmp a b < 0 → preCmp b c < 0 → preCmp a c < 0 := by
  intro a b c h1 h2
  unfold preCmp at h1 h2 ⊢
  split_ifs at h1 h2 ⊢ <;>
    first
    | exact preListCompare_neg_trans h1 h2
    | omega
    | simp_all

/-- The comparator `semverCompare` is the numeric lexicographic chain ending in the
pre-release phase `preCmp` (definitional). -/
lemma semverCompare_as_preCmp (v o : SemVersion) :
    semverCompare v o =
      (if v.major ≠ o.major then (if v.major > o.major then (1 : Int) else -1)
       else if v.minor ≠ o.minor then (if v.minor > o.minor then 1 else -1)
       else if v.patch ≠ o.patch then (if v.patch > o.patch then 1 else -1)
       else preCmp v.pre o.pre) := rfl

lemma semverCompare_self (v : SemVersion) : semverCompare v v = 0 := by
  rw [semverCompare_as_preCmp]
  have := preCmp_self v.pre
  split_ifs <;> omega

lemma semverCompare_antisym (v o : SemVersion) :
    semverCompare v o = - semverCompare o v := by
  rw [semverCompare_as_preCmp, semverCompare_as_preCmp]
  have hp := preCmp_antisym v.pre o.pre
  split_ifs <;> omega

lemma semverCompare_zero_parts {v o : SemVersion} (h : semverCompare v o = 0) :
    v.major = o.major ∧ v.minor = o.minor ∧ v.patch = o.patch
      ∧ preCmp v.pre o.pre = 0 := by
  rw [semverCompare_as_preCmp] at h
  split_ifs at h <;> omega

lemma semverCompare_zero_left {v o : SemVersion} (h : semverCompare v o = 0)
    (w : SemVersion) : semverCompare v w = semverCompare o w := by
  obtain ⟨e1, e2, e3, hp⟩ := semverCompare_zero_parts h
  rw [semverCompare_as_preCmp, semverCompare_as_preCmp, e1, e2, e3,
    preCmp_zero_left hp w.pre]

lemma semverCompare_zero_right {v o : SemVersion} (h : semverCompare v o = 0)
    (w : SemVersion) : semverCompare w v = semverCompare w o := by
  have h' : semverCompare o v = 0 := by
    have := semverCompare_antisym v o
    omega
  have ha := semverCompare_antisym w v
  have hb := semverCompare_antisym w o
  have hc := semverCompare_zero_left h' w
  omega

lemma semverCompare_neg_iff (v o : SemVersion) :
    semverCompare v o < 0 ↔
      (v.major < o.major ∨ (v.major = o.major ∧ (v.minor < o.minor ∨ (v.minor = o.minor ∧
        (v.patch < o.patch ∨ (v.patch = o.patch ∧ preCmp v.pre o.pre < 0)))))) := by
  rw [semverCompare_as_preCmp]
  split_ifs <;> omega

lemma semverCompare_neg_trans {u v w : SemVersion}
    (h1 : semverCompare u v < 0) (h2 : semverCompare v w < 0) :
    semverCompare u w < 0 := by
  rw [semverCompare_neg_iff] at h1 h2 ⊢
  by_cases hn : u.major = v.major ∧ u.minor = v.minor ∧ u.patch = v.patch
      ∧ v.major = w.major ∧ v.minor = w.minor ∧ v.patch = w.patch
  · obtain ⟨e1, e2, e3, f1, f2, f3⟩ := hn
    have hp1 : preCmp u.pre v.pre < 0 := by omega
    have hp2 : preCmp v.pre w.pre < 0 := by omega
    have hp3 : preCmp u.pre w.pre < 0 := preCmp_neg_trans hp1 hp2
    omega
  · omega

lemma semverCompare_le_trans {u v w : SemVersion}
    (h1 : semverCompare u v ≤ 0) (h2 : semverCompare v w ≤ 0) :
    semverCompare u w ≤ 0 := by
  rcases lt_or_eq_of_le h1 with hl1 | he1
  · rcases lt_or_eq_of_le h2 with hl2 | he2
    · exact le_of_lt (semverCompare_neg_trans hl1 hl2)
    · have := semverCompare_zero_right he2 u
      omega
  · have := semverCompare_zero_left he1 w
    omega

/-- The first list element satisfying a predicate is found when everything
before it fails the predicate. -/
lemma find?_first_match {α : Type} (p : α → Bool) (l₁ l₂ : List α) (a : α)
    (ha : p a = true) (hl : ∀ b ∈ l₁, p b = false) :
    (l₁ ++ a :: l₂).find? p = some a := by
  rw [List.find?_append, List.find?_eq_none.mpr (fun x hx => by simp [hl x hx]),
    Option.none_or]
  exact List.find?_cons_of_pos _ ha

/-- The strict-maximum scan of `Latest`: its result is the seed or a list
element, it never compares below the seed, and no list element compares
above it. -/
lemma pickLatest_invariant (cs : List Release) : ∀ acc : Release,
    ((cs.foldl (fun acc r => if semverCompare r.semVer acc.semVer > 0 then r else acc) acc)
        = acc
      ∨ (cs.foldl (fun acc r => if semverCompare r.semVer acc.semVer > 0 then r else acc) acc)
        ∈ cs)
    ∧ semverCompare acc.semVer
        (cs.foldl (fun acc r => if semverCompare r.semVer acc.semVer > 0 then r else acc)
          acc).semVer ≤ 0
    ∧ ∀ c ∈ cs, semverCompare c.semVer
        (cs.foldl (fun acc r => if semverCompare r.semVer acc.semVer > 0 then r else acc)
          acc).semVer ≤ 0 := by
  induction cs with
  | nil =>
    intro acc
    refine ⟨Or.inl rfl, ?_, by simp⟩
    simp [semverCompare_self]
  | cons r cs ih =>
    intro acc
    simp only [List.foldl_cons]
    by_cases hr : semverCompare r.semVer acc.semVer > 0
    · rw [if_pos hr]
      obtain ⟨hmem, hacc, hall⟩ := ih r
      have haccr : semverCompare acc.semVer r.semVer < 0 := by
        have := semverCompare_antisym r.semVer acc.semVer
        omega
      refine ⟨?_, semverCompare_le_trans (le_of_lt haccr) hacc, ?_⟩
      · rcases hmem with hm | hm
        · exact Or.inr (by rw [hm]; exact List.mem_cons_self _ _)
        · exact Or.inr (List.mem_cons_of_mem _ hm)
      · intro c hc
        rcases List.mem_cons.mp hc with rfl | hc'
        · exact hacc
        · exact hall c hc'
    · rw [if_neg hr]
      obtain ⟨hmem, hacc, hall⟩ := ih acc
      refine ⟨?_, hacc, ?_⟩
      · rcases hmem with hm | hm
        · exact Or.inl hm
        · exact Or.inr (List.mem_cons_of_mem _ hm)
      · intro c hc
        rcases List.mem_cons.mp hc with rfl | hc'
        · exact semverCompare_le_trans (by omega) hacc
        · exact hall c hc'

/-- C7 counterexample: in a release where two assets both carry the expected
name, the *first* one (URL `u1`) becomes the candidate, not the last (`u2`). -/
theorem latest_last_match_counterexample :
    latestFrom false "app" "linux" "amd64"
      [⟨"r1", "1.0.0", false,
        [⟨"u1", 1, "app_1.0.0_linux_amd64.bz2", 5⟩,
         ⟨"u2", 2, "app_1.0.0_linux_amd64.bz2", 6⟩]⟩]
      = .ok ("1.0.0", "app_1.0.0_linux_amd64.bz2", "u1")
    ∧ latestFrom false "app" "linux" "amd64"
      [⟨"r1", "1.0.0", false,
        [⟨"u1", 1, "app_1.0.0_linux_amd64.bz2", 5⟩,
         ⟨"u2", 2, "app_1.0.0_linux_amd64.bz2", 6⟩]⟩]
      ≠ .ok ("1.0.0", "app_1.0.0_linux_amd64.bz2", "u2") := by decide

/-- C7 (amended): a release contributes at most one candidate — built from
the *first* asset in its sequence carrying the expected name — and among all
candidates, provided some candidate's version exceeds the zero version
`0.0.0`, the returned release is a candidate of maximal semver version. -/
theorem latest_first_match_and_max :
    (∀ (allow : Bool) (n o a : String) (r : GhRelease) (v : SemVersion)
        (l₁ l₂ : List GhAsset) (asset : GhAsset),
      semverMake r.tag = some v →
      ¬ (¬ allow ∧ (v.pre ≠ [] ∨ r.prerelease)) →
      r.assets = l₁ ++ asset :: l₂ →
      asset.name = binaryNameFor n r.tag o a →
      (∀ b ∈ l₁, b.name ≠ binaryNameFor n r.tag o a) →
      releaseCandidate allow n o a r
        = some ⟨asset.name, r.tag, asset.browserDownloadURL, asset.size, v⟩)
    ∧ (∀ (allow : Bool) (n o a : String) (releases : List GhRelease) (c₀ : Release),
      c₀ ∈ candidatesOf allow n o a releases →
      semverCompare c₀.semVer zeroSemVer > 0 →
      ∃ res, latestFrom allow n o a releases = .ok (res.tag, res.name, res.url)
        ∧ res ∈ candidatesOf allow n o a releases
        ∧ ∀ c ∈ candidatesOf allow n o a releases,
            semverCompare c.semVer res.semVer ≤ 0) := by
  constructor
  · intro allow n o a r v l₁ l₂ asset hv hskip hassets hname hl₁
    unfold releaseCandidate
    rw [hv]
    dsimp only
    rw [if_neg hskip, hassets,
      find?_first_match _ l₁ l₂ asset (by simp [hname])
        (fun b hb => by simp [hl₁ b hb])]
  · intro allow n o a releases c₀ hc₀ hpos
    unfold latestFrom
    have hne : ¬ (candidatesOf allow n o a releases = []) := fun hh => by
      rw [hh] at hc₀
      exact List.not_mem_nil _ hc₀
    rw [if_neg hne]
    obtain ⟨hmem, _, hall⟩ := pickLatest_invariant
      (candidatesOf allow n o a releases) emptyRelease
    refine ⟨_, rfl, ?_, hall⟩
    rcases hmem with hm | hm
    · exfalso
      have h1 := hall c₀ hc₀
      rw [hm] at h1
      have h1' : semverCompare c₀.semVer zeroSemVer ≤ 0 := h1
      omega
    · exact hm

/-- Witness for C7 (amended), on the two-asset release: the first matching
asset is the candidate, and resolution returns a maximal candidate. -/
theorem latest_first_match_and_max_witness :
    releaseCandidate false "app" "linux" "amd64"
      ⟨"r1", "1.0.0", false,
        [⟨"u1", 1, "app_1.0.0_linux_amd64.bz2", 5⟩,
         ⟨"u2", 2, "app_1.0.0_linux_amd64.bz2", 6⟩]⟩
      = some ⟨"app_1.0.0_linux_amd64.bz2", "1.0.0", "u1", 5, ⟨1, 0, 0, [], []⟩⟩
    ∧ ∃ res, latestFrom false "app" "linux" "amd64"
        [⟨"r1", "1.0.0", false,
          [⟨"u1", 1, "app_1.0.0_linux_amd64.bz2", 5⟩,
           ⟨"u2", 2, "app_1.0.0_linux_amd64.bz2", 6⟩]⟩]
        = .ok (res.tag, res.name, res.url)
      ∧ res ∈ candidatesOf false "app" "linux" "amd64"
          [⟨"r1", "1.0.0", false,
            [⟨"u1", 1, "app_1.0.0_linux_amd64.bz2", 5⟩,
             ⟨"u2", 2, "app_1.0.0_linux_amd64.bz2", 6⟩]⟩]
      ∧ ∀ c ∈ candidatesOf false "app" "linux" "amd64"
          [⟨"r1", "1.0.0", false,
            [⟨"u1", 1, "app_1.0.0_linux_amd64.bz2", 5⟩,
             ⟨"u2", 2, "app_1.0.0_linux_amd64.bz2", 6⟩]⟩],
          semverCompare c.semVer res.semVer ≤ 0 := by
  constructor
  · have h := latest_first_match_and_max.1 false "app" "linux" "amd64"
      ⟨"r1", "1.0.0", false,
        [⟨"u1", 1, "app_1.0.0_linux_amd64.bz2", 5⟩,
         ⟨"u2", 2, "app_1.0.0_linux_amd64.bz2", 6⟩]⟩
      ⟨1, 0, 0, [], []⟩ [] [⟨"u2", 2, "app_1.0.0_linux_amd64.bz2", 6⟩]
      ⟨"u1", 1, "app_1.0.0_linux_amd64.bz2", 5⟩
      (by decide) (by decide) rfl (by decide) (by decide)
    exact h
  · exact latest_first_match_and_max.2 false "app" "linux" "amd64"
      [⟨"r1", "1.0.0", false,
        [⟨"u1", 1, "app_1.0.0_linux_amd64.bz2", 5⟩,
         ⟨"u2", 2, "app_1.0.0_linux_amd64.bz2", 6⟩]⟩]
      ⟨"app_1.0.0_linux_amd64.bz2", "1.0.0", "u1", 5, ⟨1, 0, 0, [], []⟩⟩
      (by decide) (by decide)

end Ghru
